import Mathlib

/-!
Verification of the RFM customer-segmentation engine of this repository
(`src/analysis.py`, function `perform_rfm_analysis` and its helper
`segment_customers`), as a shallow embedding.

Modelling conventions:
* a transaction row carries `transaction_id` (always present in the data
  the app builds), an optional `customer_id` and `total_amount` (a pandas
  null / NaN is modelled as `none`; `groupby` drops null keys and `sum`
  skips null amounts), and a `transaction_date` measured in whole days;
* money and quantile arithmetic use `ℚ` (the claims at stake concern sums
  and order comparisons, not float rounding);
* `pd.qcut(x, 5, labels = L, duplicates := drop)` is modelled faithfully:
  quantile edges with linear interpolation at positions `q * (n - 1)`,
  first-occurrence deduplication of the edges, then — exactly as in
  pandas `_bins_to_cuts` — a hard error when the label list no longer has
  `(number of edges) - 1` entries, else right-closed interval assignment
  by `searchsorted` with `include_lowest`.
-/

namespace RFM

/-- One row of the transactions table.  `customer_id` and `total_amount`
are optional: a `none` models a pandas null (NaN) in that column. -/
structure Txn where
  transaction_id : ℕ
  customer_id : Option ℕ
  transaction_date : ℤ
  total_amount : Option ℚ
deriving Repr, DecidableEq

/-- Maximum of a list of integers (0 for the empty list; only ever used on
nonempty lists). -/
def maxInt : List ℤ → ℤ
  | [] => 0
  | x :: xs => xs.foldl max x

/-- `df['transaction_date'].max()` over the whole table. -/
def maxDate (rows : List Txn) : ℤ := maxInt (rows.map Txn.transaction_date)

/-- The distinct customer ids, in ascending order — `df.groupby('customer_id')`
sorts the group keys and silently drops rows whose key is null. -/
def customersOf (rows : List Txn) : List ℕ :=
  ((rows.filterMap Txn.customer_id).dedup).insertionSort (· ≤ ·)

/-- The rows of one customer's group. -/
def rowsOf (rows : List Txn) (c : ℕ) : List Txn :=
  rows.filter (fun t => t.customer_id = some c)

/-- `x.max()` over one customer's transaction dates. -/
def custMaxDate (rows : List Txn) (c : ℕ) : ℤ :=
  maxInt ((rowsOf rows c).map Txn.transaction_date)

/-- `(max_date - x.max()).days` for one customer. -/
def recency (rows : List Txn) (c : ℕ) : ℤ := maxDate rows - custMaxDate rows c

/-- `'transaction_id': 'count'` for one customer: every row built by the app
has a transaction id, so the count is the number of rows in the group. -/
def frequency (rows : List Txn) (c : ℕ) : ℕ := (rowsOf rows c).length

/-- `'total_amount': 'sum'` for one customer (pandas `sum` skips nulls). -/
def monetary (rows : List Txn) (c : ℕ) : ℚ :=
  ((rowsOf rows c).filterMap Txn.total_amount).sum

/-- The list sorted ascending (pandas sorts values before taking quantiles). -/
def sortedVals (xs : List ℚ) : List ℚ := xs.insertionSort (· ≤ ·)

/-- Linear-interpolation quantile, numpy style: position `q * (n - 1)`
between the order statistics. -/
def quantile (xs : List ℚ) (q : ℚ) : ℚ :=
  let s := sortedVals xs
  let n := s.length
  let p : ℚ := q * ((n : ℚ) - 1)
  let i : ℕ := (⌊p⌋).toNat
  let i2 : ℕ := min (i + 1) (n - 1)
  s.getD i 0 + (p - (i : ℚ)) * (s.getD i2 0 - s.getD i 0)

/-- The six 5-quantile bucket edges `q = 0, 0.2, 0.4, 0.6, 0.8, 1`. -/
def qcutEdges (xs : List ℚ) : List ℚ :=
  ([0, 1/5, 2/5, 3/5, 4/5, 1] : List ℚ).map (fun q => quantile xs q)

/-- First-occurrence deduplication, as pandas `algos.unique` does to the
bucket edges under `duplicates := drop`. -/
def uniqueFirst : List ℚ → List ℚ
  | [] => []
  | x :: xs => x :: uniqueFirst (xs.filter (fun y => y ≠ x))
termination_by l => l.length
decreasing_by
  exact Nat.lt_succ_of_le (List.length_filter_le _ _)

/-- Interval id of a value: `searchsorted(bins, v, side = left)` counts the
edges strictly below `v`; `include_lowest` lifts the minimum into bin 1. -/
def bucketId (uedges : List ℚ) (v : ℚ) : ℕ :=
  max 1 ((uedges.filter (fun e => e < v)).length)

/-- The label a value receives from `pd.qcut`. -/
def scoreAt (uedges : List ℚ) (labels : List ℕ) (v : ℚ) : ℕ :=
  labels.getD (bucketId uedges v - 1) 0

/-- `pd.qcut(xs, 5, labels := labels, duplicates := drop)`.  After dropping
duplicate edges pandas still insists that the label list have exactly one
entry fewer than the remaining edges, and raises otherwise; an empty input
also raises (its quantile edges are all NaN and collapse). -/
def qcut (xs : List ℚ) (labels : List ℕ) : Except String (List ℕ) :=
  if xs = [] then .error "empty input to qcut"
  else
    let uedges := uniqueFirst (qcutEdges xs)
    if labels.length ≠ uedges.length - 1 then
      .error "Bin labels must be one fewer than the number of bin edges"
    else .ok (xs.map (scoreAt uedges labels))

/-- `rfm['frequency'].rank(method = 'first')`: value rank with ties broken
by position of first occurrence, so the ranks are exactly `1 .. n`. -/
def rankFirst (l : List ℕ) : List ℕ :=
  (List.range l.length).map (fun i =>
    1 + (l.filter (fun y => y < l.getD i 0)).length
      + ((l.take i).filter (fun y => y = l.getD i 0)).length)

/-- Labels of the recency buckets (line 41: `labels=[5,4,3,2,1]`). -/
def rLabels : List ℕ := [5, 4, 3, 2, 1]

/-- Labels of the frequency and monetary buckets (`labels=[1,2,3,4,5]`). -/
def ascLabels : List ℕ := [1, 2, 3, 4, 5]

/-- `segment_customers` (lines 46-57). -/
def segmentOf (score : ℕ) : String :=
  if 13 ≤ score then "Champions"
  else if 10 ≤ score then "Loyal Customers"
  else if 7 ≤ score then "Potential Loyalists"
  else if 5 ≤ score then "At Risk"
  else "Lost Customers"

/-- The churn-risk lambda (lines 62-64). -/
def churnOf (r : ℕ) : String :=
  if r ≤ 2 then "High" else if r ≤ 3 then "Medium" else "Low"

/-- One output row of the RFM table. -/
structure Profile where
  customer_id : ℕ
  recency : ℤ
  frequency : ℕ
  monetary : ℚ
  r_score : ℕ
  f_score : ℕ
  m_score : ℕ
  segment : String
  churn_risk : String
deriving Repr, DecidableEq

/-- `perform_rfm_analysis` (lines 25-66): aggregate per customer, score the
three metrics with `pd.qcut`, then attach segment and churn risk.  A qcut
failure (pandas `ValueError`) aborts the whole computation. -/
def perform_rfm_analysis (rows : List Txn) : Except String (List Profile) := do
  let cs := customersOf rows
  let recs : List ℚ := cs.map (fun c => ((recency rows c : ℤ) : ℚ))
  let freqs : List ℕ := cs.map (frequency rows)
  let mons : List ℚ := cs.map (monetary rows)
  let rs ← qcut recs rLabels
  let fs ← qcut ((rankFirst freqs).map (fun r : ℕ => (r : ℚ))) ascLabels
  let ms ← qcut mons ascLabels
  .ok ((List.range cs.length).map (fun k =>
    let r := rs.getD k 0
    let f := fs.getD k 0
    let m := ms.getD k 0
    { customer_id := cs.getD k 0
      recency := recency rows (cs.getD k 0)
      frequency := freqs.getD k 0
      monetary := mons.getD k 0
      r_score := r
      f_score := f
      m_score := m
      segment := segmentOf (r + f + m)
      churn_risk := churnOf r }))

/-- How many output profiles carry a given segment label. -/
def countSeg (ps : List Profile) (s : String) : ℕ :=
  (ps.filter (fun p => p.segment = s)).length

/-- The five segment labels. -/
def segNames : List String :=
  ["Champions", "Loyal Customers", "Potential Loyalists", "At Risk", "Lost Customers"]

/-- The profile built for the customer at position `k` of the sorted customer
list, given the three score vectors (the row constructed on lines 30-64). -/
def profileAt (rows : List Txn) (rs fs ms : List ℕ) (k : ℕ) : Profile :=
  { customer_id := (customersOf rows).getD k 0
    recency := recency rows ((customersOf rows).getD k 0)
    frequency := ((customersOf rows).map (frequency rows)).getD k 0
    monetary := ((customersOf rows).map (monetary rows)).getD k 0
    r_score := rs.getD k 0
    f_score := fs.getD k 0
    m_score := ms.getD k 0
    segment := segmentOf (rs.getD k 0 + fs.getD k 0 + ms.getD k 0)
    churn_risk := churnOf (rs.getD k 0) }

/-- Concrete witness table: customer 1 places five transactions of 10 on day
100; customers 2-5 place one transaction each, progressively older and
smaller.  All three metrics have five distinct values (ranks break the
frequency ties), so all three `pd.qcut` calls succeed. -/
def wRows : List Txn :=
  [⟨1, some 1, 100, some 10⟩, ⟨2, some 1, 100, some 10⟩, ⟨3, some 1, 100, some 10⟩,
   ⟨4, some 1, 100, some 10⟩, ⟨5, some 1, 100, some 10⟩,
   ⟨6, some 2, 99, some 40⟩, ⟨7, some 3, 98, some 30⟩,
   ⟨8, some 4, 97, some 20⟩, ⟨9, some 5, 96, some 10⟩]

/-- The profile table `perform_rfm_analysis` returns on `wRows`. -/
def wProfiles : List Profile :=
  [⟨1, 0, 5, 50, 5, 5, 5, "Champions", "Low"⟩,
   ⟨2, 1, 1, 40, 4, 1, 4, "Potential Loyalists", "Low"⟩,
   ⟨3, 2, 1, 30, 3, 2, 3, "Potential Loyalists", "Medium"⟩,
   ⟨4, 3, 1, 20, 2, 3, 2, "Potential Loyalists", "High"⟩,
   ⟨5, 4, 1, 10, 1, 4, 1, "At Risk", "High"⟩]

/-- The spec scenario of C8: five customers, one same-day transaction each,
monetary totals 10, 20, 30, 40, 50 — equal recency, equal frequency. -/
def scenarioRows : List Txn :=
  [⟨1, some 1, 100, some 10⟩, ⟨2, some 2, 100, some 20⟩, ⟨3, some 3, 100, some 30⟩,
   ⟨4, some 4, 100, some 40⟩, ⟨5, some 5, 100, some 50⟩]

/-- The boundary input of C3: five customers with pairwise distinct recencies
and frequencies ranked apart, but a single shared monetary value. -/
def singleMonetaryRows : List Txn :=
  [⟨1, some 1, 100, some 100⟩, ⟨2, some 2, 99, some 100⟩, ⟨3, some 3, 98, some 100⟩,
   ⟨4, some 4, 97, some 100⟩, ⟨5, some 5, 96, some 100⟩]

/-- `wRows` plus one extra row whose `customer_id` and `total_amount` are both
null (missing required fields). -/
def nullFieldRows : List Txn := wRows ++ [⟨10, none, 95, none⟩]

/-- A minimal two-customer table for the C9 witness. -/
def c9Rows : List Txn := [⟨1, some 1, 10, some 5⟩, ⟨2, some 2, 9, some 3⟩]

/-- The first profile of `wProfiles`: customer 1, a Champion. -/
def champProfile : Profile := ⟨1, 0, 5, 50, 5, 5, 5, "Champions", "Low"⟩

theorem le_foldl_max (l : List ℤ) (a : ℤ) : a ≤ l.foldl max a := by
  induction l generalizing a with
  | nil => exact le_refl a
  | cons x xs ih =>
    calc a ≤ max a x := le_max_left a x
    _ ≤ xs.foldl max (max a x) := ih (max a x)

theorem mem_le_foldl_max (l : List ℤ) : ∀ (a x : ℤ), x ∈ l → x ≤ l.foldl max a := by
  induction l with
  | nil => intro a x hx; cases hx
  | cons y ys ih =>
    intro a x hx
    rcases List.mem_cons.1 hx with h | h
    · subst h
      calc x ≤ max a x := le_max_right a x
      _ ≤ ys.foldl max (max a x) := le_foldl_max ys (max a x)
    · exact ih (max a y) x h

theorem foldl_max_mem (l : List ℤ) : ∀ (a : ℤ), l.foldl max a = a ∨ l.foldl max a ∈ l := by
  induction l with
  | nil => intro a; exact Or.inl rfl
  | cons x xs ih =>
    intro a
    show xs.foldl max (max a x) = a ∨ xs.foldl max (max a x) ∈ x :: xs
    rcases ih (max a x) with h | h
    · rcases max_choice a x with hm | hm
      · rw [h, hm]
        exact Or.inl rfl
      · rw [h, hm]
        exact Or.inr (List.mem_cons_self x xs)
    · exact Or.inr (List.mem_cons_of_mem x h)

theorem le_maxInt {l : List ℤ} {x : ℤ} (hx : x ∈ l) : x ≤ maxInt l := by
  cases l with
  | nil => cases hx
  | cons y ys =>
    rcases List.mem_cons.1 hx with h | h
    · subst h
      exact le_foldl_max ys x
    · exact mem_le_foldl_max ys y x h

theorem maxInt_mem {l : List ℤ} (hl : l ≠ []) : maxInt l ∈ l := by
  cases l with
  | nil => exact absurd rfl hl
  | cons y ys =>
    rcases foldl_max_mem ys y with h | h
    · rw [maxInt, h]
      exact List.mem_cons_self y ys
    · exact List.mem_cons_of_mem y h

theorem mem_customersOf {rows : List Txn} {c : ℕ} (hc : c ∈ customersOf rows) :
    ∃ t ∈ rows, t.customer_id = some c := by
  have h1 : c ∈ (rows.filterMap Txn.customer_id).dedup :=
    (List.perm_insertionSort (· ≤ ·) ((rows.filterMap Txn.customer_id).dedup)).subset hc
  have h2 : c ∈ rows.filterMap Txn.customer_id := List.mem_dedup.1 h1
  exact List.mem_filterMap.1 h2

theorem rowsOf_ne_nil {rows : List Txn} {c : ℕ} (hc : c ∈ customersOf rows) :
    rowsOf rows c ≠ [] := by
  obtain ⟨t, ht, hid⟩ := mem_customersOf hc
  have : t ∈ rowsOf rows c := by
    rw [rowsOf, List.mem_filter]
    exact ⟨ht, by simp [hid]⟩
  intro h
  rw [h] at this
  cases this

theorem custMaxDate_le_maxDate {rows : List Txn} {c : ℕ} (hc : c ∈ customersOf rows) :
    custMaxDate rows c ≤ maxDate rows := by
  have hne : (rowsOf rows c).map Txn.transaction_date ≠ [] := by
    intro h
    exact rowsOf_ne_nil hc (List.map_eq_nil_iff.1 h)
  have hmem : custMaxDate rows c ∈ (rowsOf rows c).map Txn.transaction_date :=
    maxInt_mem hne
  obtain ⟨t, ht, hdate⟩ := List.mem_map.1 hmem
  have ht' : t ∈ rows := List.mem_of_mem_filter ht
  have : t.transaction_date ∈ rows.map Txn.transaction_date := List.mem_map_of_mem _ ht'
  rw [← hdate]
  exact le_maxInt this

theorem sortedVals_perm (xs : List ℚ) : (sortedVals xs).Perm xs :=
  List.perm_insertionSort (· ≤ ·) xs

theorem sortedVals_sorted (xs : List ℚ) : (sortedVals xs).Sorted (· ≤ ·) :=
  List.sorted_insertionSort (· ≤ ·) xs

theorem length_sortedVals (xs : List ℚ) : (sortedVals xs).length = xs.length :=
  (sortedVals_perm xs).length_eq

theorem sorted_lt_count {t : List ℚ} (ht : t.Sorted (· ≤ ·)) :
    ∀ {u : ℕ}, u < t.length → ∀ {c : ℚ}, t.getD u 0 < c →
      u + 1 ≤ (t.filter (fun x => x < c)).length := by
  induction t with
  | nil => intro u hu; simp at hu
  | cons a t ih =>
    rw [List.sorted_cons] at ht
    intro u hu c h
    cases u with
    | zero =>
      have ha : a < c := by simpa using h
      simp [List.filter_cons, ha]
    | succ u =>
      have hu' : u < t.length := by simpa using hu
      have h' : t.getD u 0 < c := by simpa using h
      have hmem : t.getD u 0 ∈ t := by
        rw [List.getD_eq_getElem t 0 hu']
        exact List.getElem_mem hu'
      have ha : a < c := lt_of_le_of_lt (ht.1 _ hmem) h'
      have := ih ht.2 hu' h'
      simp only [List.filter_cons, decide_eq_true ha, if_true, List.length_cons]
      omega

theorem sorted_count_le {t : List ℚ} (ht : t.Sorted (· ≤ ·)) :
    ∀ {u : ℕ}, u < t.length → ∀ {c : ℚ}, c ≤ t.getD u 0 →
      (t.filter (fun x => x < c)).length ≤ u := by
  induction t with
  | nil => intro u hu; simp at hu
  | cons a t ih =>
    rw [List.sorted_cons] at ht
    intro u hu c h
    cases u with
    | zero =>
      have ha : ¬ a < c := by
        have : c ≤ a := by simpa using h
        exact not_lt.2 this
      have : t.filter (fun x => x < c) = [] := by
        apply List.filter_eq_nil_iff.2
        intro x hx
        have : a ≤ x := ht.1 x hx
        simp only [decide_eq_true_eq]
        have hca : c ≤ a := by simpa using h
        exact not_lt.2 (le_trans hca this)
      simp [List.filter_cons, ha, this]
    | succ u =>
      have hu' : u < t.length := by simpa using hu
      have h' : c ≤ t.getD u 0 := by simpa using h
      have := ih ht.2 hu' h'
      by_cases ha : a < c
      · simp only [List.filter_cons, decide_eq_true ha, if_true, List.length_cons]
        omega
      · simp only [List.filter_cons, decide_eq_false ha, Bool.false_eq_true, if_false]
        omega

theorem count_le_getD {t : List ℚ} (ht : t.Sorted (· ≤ ·)) {u : ℕ} (hu : u < t.length)
    {c : ℚ} (h : (t.filter (fun x => x < c)).length ≤ u) : c ≤ t.getD u 0 := by
  by_contra hlt
  push_neg at hlt
  have := sorted_lt_count ht hu hlt
  omega

theorem getD_lt_of_lt_count {t : List ℚ} (ht : t.Sorted (· ≤ ·)) {u : ℕ} (hu : u < t.length)
    {c : ℚ} (h : u < (t.filter (fun x => x < c)).length) : t.getD u 0 < c := by
  by_contra hge
  push_neg at hge
  have := sorted_count_le ht hu hge
  omega

theorem sorted_filter_lt_eq_take {t : List ℚ} (ht : t.Sorted (· ≤ ·)) (c : ℚ) :
    t.filter (fun x => x < c) = t.take ((t.filter (fun x => x < c)).length) := by
  induction t with
  | nil => rfl
  | cons a t ih =>
    rw [List.sorted_cons] at ht
    by_cases ha : a < c
    · simp only [List.filter_cons, decide_eq_true ha, if_true, List.length_cons,
        List.take_succ_cons]
      rw [← ih ht.2]
    · have : t.filter (fun x => x < c) = [] := by
        apply List.filter_eq_nil_iff.2
        intro x hx
        simp only [decide_eq_true_eq]
        exact not_lt.2 (le_trans (not_lt.1 ha) (ht.1 x hx))
      simp [List.filter_cons, ha, this]

theorem filter_set_eq {α : Type} (p : α → Bool) :
    ∀ (xs : List α) (j : ℕ) (v d : α), j < xs.length →
      p (xs.getD j d) = false → p v = false →
      (xs.set j v).filter p = xs.filter p := by
  intro xs
  induction xs with
  | nil => intro j v d hj; simp at hj
  | cons x xs ih =>
    intro j v d hj hpj hpv
    cases j with
    | zero =>
      have hx : p x = false := by simpa using hpj
      simp [List.filter_cons, hx, hpv]
    | succ j =>
      have hj' : j < xs.length := by simpa using hj
      have hpj' : p (xs.getD j d) = false := by simpa using hpj
      simp only [List.set_cons_succ, List.filter_cons]
      rw [ih j v d hj' hpj' hpv]

theorem quantile_one (xs : List ℚ) (hxs : xs ≠ []) :
    quantile xs 1 = (sortedVals xs).getD (xs.length - 1) 0 := by
  have hn : 1 ≤ xs.length := List.length_pos.2 hxs
  rw [quantile]
  simp only [length_sortedVals]
  have hp : (1 : ℚ) * ((xs.length : ℚ) - 1) = ((xs.length - 1 : ℕ) : ℚ) := by
    push_cast [hn]
    ring
  rw [hp, Int.floor_natCast, Int.toNat_natCast]
  have hmin : min (xs.length - 1 + 1) (xs.length - 1) = xs.length - 1 := by omega
  rw [hmin]
  ring

theorem le_quantile_one {xs : List ℚ} {v : ℚ} (hv : v ∈ xs) : v ≤ quantile xs 1 := by
  have hxs : xs ≠ [] := List.ne_nil_of_mem hv
  have hn : 1 ≤ xs.length := List.length_pos.2 hxs
  rw [quantile_one xs hxs]
  have hs := sortedVals_sorted xs
  have hu : xs.length - 1 < (sortedVals xs).length := by
    rw [length_sortedVals]
    omega
  apply count_le_getD hs hu
  have hvs : v ∈ sortedVals xs := ((sortedVals_perm xs).mem_iff).2 hv
  have hlt : ((sortedVals xs).filter (fun x => x < v)).length < (sortedVals xs).length :=
    List.length_filter_lt_length_iff_exists.2 ⟨v, hvs, by simp⟩
  rw [length_sortedVals] at hlt
  omega

theorem quantile_one_mem_edges (xs : List ℚ) : quantile xs 1 ∈ qcutEdges xs := by
  rw [qcutEdges]
  exact List.mem_map_of_mem _ (by norm_num)

theorem mem_uniqueFirst {l : List ℚ} {a : ℚ} : a ∈ uniqueFirst l ↔ a ∈ l := by
  induction l using uniqueFirst.induct with
  | case1 => simp [uniqueFirst]
  | case2 x xs ih =>
    rw [uniqueFirst]
    constructor
    · intro h
      rcases List.mem_cons.1 h with h | h
      · exact h ▸ List.mem_cons_self x xs
      · exact List.mem_cons_of_mem x (List.mem_of_mem_filter (ih.1 h))
    · intro h
      rcases List.mem_cons.1 h with h | h
      · exact h ▸ List.mem_cons_self x (uniqueFirst (xs.filter (fun y => y ≠ x)))
      · by_cases hax : a = x
        · exact hax ▸ List.mem_cons_self x _
        · apply List.mem_cons_of_mem
          apply ih.2
          rw [List.mem_filter]
          exact ⟨h, by simpa using hax⟩

theorem uniqueFirst_sublist (l : List ℚ) : (uniqueFirst l).Sublist l := by
  induction l using uniqueFirst.induct with
  | case1 => simp [uniqueFirst]
  | case2 x xs ih =>
    rw [uniqueFirst]
    exact List.Sublist.cons₂ x (ih.trans (List.filter_sublist xs))

theorem uniqueFirst_eq_self {l : List ℚ} (h : (uniqueFirst l).length = l.length) :
    uniqueFirst l = l :=
  (uniqueFirst_sublist l).eq_of_length h

theorem qcut_ok_iff {xs : List ℚ} {labels : List ℕ} {ys : List ℕ} :
    qcut xs labels = .ok ys ↔
      xs ≠ [] ∧ labels.length = (uniqueFirst (qcutEdges xs)).length - 1 ∧
        ys = xs.map (scoreAt (uniqueFirst (qcutEdges xs)) labels) := by
  rw [qcut]
  by_cases hxs : xs = []
  · simp [hxs]
  · simp only [hxs, if_false, ne_eq, not_false_eq_true, true_and]
    by_cases hlen : labels.length = (uniqueFirst (qcutEdges xs)).length - 1
    · simp [hlen, eq_comm]
    · simp [hlen]

theorem qcut_length {xs : List ℚ} {labels : List ℕ} {ys : List ℕ}
    (h : qcut xs labels = .ok ys) : ys.length = xs.length := by
  rw [(qcut_ok_iff.1 h).2.2]
  exact List.length_map xs _

theorem scoreAt_mem {xs : List ℚ} {labels : List ℕ} {v : ℚ}
    (hlab : labels ≠ [])
    (hlen : labels.length = (uniqueFirst (qcutEdges xs)).length - 1)
    (hv : v ∈ xs) :
    scoreAt (uniqueFirst (qcutEdges xs)) labels v ∈ labels := by
  set uedges := uniqueFirst (qcutEdges xs) with hue
  have h1 : quantile xs 1 ∈ uedges := mem_uniqueFirst.2 (quantile_one_mem_edges xs)
  have hnot : ¬ (quantile xs 1 < v) := not_lt.2 (le_quantile_one hv)
  have hcnt : (uedges.filter (fun e => e < v)).length < uedges.length :=
    List.length_filter_lt_length_iff_exists.2 ⟨quantile xs 1, h1, by simpa using hnot⟩
  have hlab' : 1 ≤ labels.length := List.length_pos.2 hlab
  have hidx : bucketId uedges v - 1 < labels.length := by
    rw [bucketId]
    omega
  rw [scoreAt, List.getD_eq_getElem labels 0 hidx]
  exact List.getElem_mem hidx

theorem qcut_mem {xs : List ℚ} {labels : List ℕ} {ys : List ℕ}
    (h : qcut xs labels = .ok ys) (hlab : labels ≠ []) :
    ∀ y ∈ ys, y ∈ labels := by
  obtain ⟨hxs, hlen, hys⟩ := qcut_ok_iff.1 h
  intro y hy
  rw [hys] at hy
  obtain ⟨v, hv, hsc⟩ := List.mem_map.1 hy
  exact hsc ▸ scoreAt_mem hlab hlen hv

theorem sorted_getD_mono {t : List ℚ} (ht : t.Sorted (· ≤ ·)) {u w : ℕ} (huw : u ≤ w)
    (hw : w < t.length) : t.getD u 0 ≤ t.getD w 0 := by
  have hu : u < t.length := lt_of_le_of_lt huw hw
  rcases lt_or_eq_of_le huw with hlt | heq
  · rw [List.getD_eq_getElem t 0 hu, List.getD_eq_getElem t 0 hw]
    exact List.pairwise_iff_getElem.1 ht u w hu hw hlt
  · rw [heq]

theorem quantile_def (xs : List ℚ) (q : ℚ) :
    quantile xs q =
      (sortedVals xs).getD (⌊q * ((xs.length : ℚ) - 1)⌋).toNat 0 +
        (q * ((xs.length : ℚ) - 1) - ((⌊q * ((xs.length : ℚ) - 1)⌋).toNat : ℚ)) *
          ((sortedVals xs).getD
              (min ((⌊q * ((xs.length : ℚ) - 1)⌋).toNat + 1) (xs.length - 1)) 0 -
            (sortedVals xs).getD (⌊q * ((xs.length : ℚ) - 1)⌋).toNat 0) := by
  simp only [quantile, length_sortedVals]

theorem sortedVals_filter_lt_set_eq (xs : List ℚ) (j : ℕ) (v' : ℚ) (hj : j < xs.length)
    (hv : v' < xs.getD j 0) :
    (sortedVals (xs.set j v')).filter (fun x => x < v') =
      (sortedVals xs).filter (fun x => x < v') := by
  have h1 : (xs.set j v').filter (fun x => x < v') = xs.filter (fun x => x < v') := by
    apply filter_set_eq _ xs j v' 0 hj
    · simp only [decide_eq_false_iff_not]
      exact not_lt.2 (le_of_lt hv)
    · simp
  have p1 : ((sortedVals (xs.set j v')).filter (fun x => x < v')).Perm
      ((xs.set j v').filter (fun x => x < v')) :=
    List.Perm.filter _ (sortedVals_perm (xs.set j v'))
  have p2 : (xs.filter (fun x => x < v')).Perm
      ((sortedVals xs).filter (fun x => x < v')) :=
    (List.Perm.filter _ (sortedVals_perm xs)).symm
  have h2 : ((sortedVals (xs.set j v')).filter (fun x => x < v')).Perm
      ((sortedVals xs).filter (fun x => x < v')) := by
    refine p1.trans ?_
    rw [h1]
    exact p2
  exact List.eq_of_perm_of_sorted h2 ((sortedVals_sorted _).filter _)
    ((sortedVals_sorted _).filter _)

theorem sortedVals_set_getD_eq (xs : List ℚ) (j : ℕ) (v' : ℚ) (hj : j < xs.length)
    (hv : v' < xs.getD j 0) {u : ℕ}
    (hu : u < ((sortedVals xs).filter (fun x => x < v')).length) :
    (sortedVals (xs.set j v')).getD u 0 = (sortedVals xs).getD u 0 := by
  have hfe := sortedVals_filter_lt_set_eq xs j v' hj hv
  set L := ((sortedVals xs).filter (fun x => x < v')).length with hL
  have hL' : ((sortedVals (xs.set j v')).filter (fun x => x < v')).length = L := by
    rw [hfe]
  have htk : (sortedVals xs).filter (fun x => x < v') =
      (sortedVals xs).take L := sorted_filter_lt_eq_take (sortedVals_sorted xs) v'
  have htk' : (sortedVals (xs.set j v')).filter (fun x => x < v') =
      (sortedVals (xs.set j v')).take L := by
    have := sorted_filter_lt_eq_take (sortedVals_sorted (xs.set j v')) v'
    rw [hL'] at this
    exact this
  have hteq : (sortedVals (xs.set j v')).take L = (sortedVals xs).take L := by
    rw [← htk, ← htk', hfe]
  have hlen : L ≤ (sortedVals xs).length := by
    rw [hL]
    exact List.length_filter_le _ _
  have hlen' : (sortedVals (xs.set j v')).length = (sortedVals xs).length := by
    rw [length_sortedVals, length_sortedVals, List.length_set]
  have hu1 : u < (sortedVals xs).length := lt_of_lt_of_le hu hlen
  have hu2 : u < (sortedVals (xs.set j v')).length := by
    rw [hlen']
    exact hu1
  have hut : u < ((sortedVals xs).take L).length := by
    rw [List.length_take]
    omega
  have hut' : u < ((sortedVals (xs.set j v')).take L).length := by
    rw [List.length_take]
    omega
  rw [List.getD_eq_getElem?_getD, List.getD_eq_getElem?_getD]
  have e1 : (sortedVals (xs.set j v'))[u]? = ((sortedVals (xs.set j v')).take L)[u]? := by
    rw [List.getElem?_take, if_pos hu]
  have e2 : (sortedVals xs)[u]? = ((sortedVals xs).take L)[u]? := by
    rw [List.getElem?_take, if_pos hu]
  rw [e1, e2, hteq]

theorem length_filter_mono {α : Type} (l : List α) (p q : α → Bool)
    (h : ∀ x ∈ l, p x = true → q x = true) :
    (l.filter p).length ≤ (l.filter q).length := by
  induction l with
  | nil => simp
  | cons x xs ih =>
    have ih' := ih (fun y hy => h y (List.mem_cons_of_mem x hy))
    rw [List.filter_cons, List.filter_cons]
    by_cases hp : p x = true
    · have hq := h x (List.mem_cons_self x xs) hp
      rw [if_pos hp, if_pos hq, List.length_cons, List.length_cons]
      omega
    · rw [if_neg hp]
      by_cases hq : q x = true
      · rw [if_pos hq, List.length_cons]
        omega
      · rw [if_neg hq]
        exact ih'

theorem quantile_set_ge (xs : List ℚ) (j : ℕ) (hj : j < xs.length) (v' : ℚ)
    (hv : v' < xs.getD j 0) (q : ℚ) (hq0 : 0 ≤ q) (hq1 : q ≤ 1)
    (h : xs.getD j 0 ≤ quantile xs q) : v' ≤ quantile (xs.set j v') q := by
  have hn : 1 ≤ xs.length := by omega
  rw [quantile_def] at h
  rw [quantile_def, List.length_set]
  set v := xs.getD j 0 with hvdef
  set s := sortedVals xs with hsdef
  set t := sortedVals (xs.set j v') with htdef
  set p : ℚ := q * ((xs.length : ℚ) - 1) with hpdef
  set i : ℕ := (⌊p⌋).toNat with hidef
  set i2 : ℕ := min (i + 1) (xs.length - 1) with hi2def
  have hs := sortedVals_sorted xs
  have hs' := sortedVals_sorted (xs.set j v')
  have hslen : s.length = xs.length := length_sortedVals xs
  have hslen' : t.length = xs.length := by
    rw [htdef, length_sortedVals, List.length_set]
  have hp0 : 0 ≤ p := by
    apply mul_nonneg hq0
    have h1 : (1 : ℚ) ≤ (xs.length : ℚ) := by exact_mod_cast hn
    linarith
  have hfloor0 : (0 : ℤ) ≤ ⌊p⌋ := Int.floor_nonneg.2 hp0
  have hicast : (i : ℚ) = ((⌊p⌋ : ℤ) : ℚ) := by
    rw [hidef]
    exact_mod_cast congrArg (fun z => ((z : ℤ) : ℚ)) (Int.toNat_of_nonneg hfloor0)
  have hiple : (i : ℚ) ≤ p := by
    rw [hicast]
    exact Int.floor_le p
  have hpi1 : p < (i : ℚ) + 1 := by
    rw [hicast]
    exact_mod_cast Int.lt_floor_add_one p
  have hile : i ≤ xs.length - 1 := by
    have hple : p ≤ (xs.length : ℚ) - 1 := by
      have h1 : (0 : ℚ) ≤ (xs.length : ℚ) - 1 := by
        have : (1 : ℚ) ≤ (xs.length : ℚ) := by exact_mod_cast hn
        linarith
      calc p = q * ((xs.length : ℚ) - 1) := rfl
        _ ≤ 1 * ((xs.length : ℚ) - 1) := mul_le_mul_of_nonneg_right hq1 h1
        _ = (xs.length : ℚ) - 1 := one_mul _
    have hfl : ⌊p⌋ ≤ (xs.length : ℤ) - 1 := by
      have h2 := Int.floor_le_floor hple
      rwa [show ((xs.length : ℚ) - 1) = (((xs.length : ℤ) - 1 : ℤ) : ℚ) by push_cast; ring,
        Int.floor_intCast] at h2
    omega
  have hii2 : i ≤ i2 := by omega
  have hi2le : i2 ≤ xs.length - 1 := by omega
  have hilt : i < xs.length := by omega
  have hi2lt : i2 < xs.length := by omega
  set L := (s.filter (fun x => x < v')).length with hLdef
  have hLfe : (t.filter (fun x => x < v')).length = L := by
    rw [htdef, hsdef] at *
    rw [sortedVals_filter_lt_set_eq xs j v' hj hv]
  have hLle : L ≤ xs.length := by
    rw [hLdef, ← hslen]
    exact List.length_filter_le _ _
  have hitl : i < t.length := by omega
  have hi2tl : i2 < t.length := by omega
  have hisl : i < s.length := by omega
  have hi2sl : i2 < s.length := by omega
  rcases le_or_lt L i with hLi | hiL
  · have h1 : v' ≤ t.getD i 0 := by
      apply count_le_getD hs' hitl
      rw [hLfe]
      exact hLi
    have h2 : v' ≤ t.getD i2 0 := by
      apply count_le_getD hs' hi2tl
      rw [hLfe]
      omega
    have hf0 : (0 : ℚ) ≤ p - (i : ℚ) := sub_nonneg.2 hiple
    have hf1 : p - (i : ℚ) ≤ 1 := by linarith
    nlinarith [mul_nonneg hf0 (sub_nonneg.2 h2),
      mul_nonneg (by linarith : (0 : ℚ) ≤ 1 - (p - (i : ℚ))) (sub_nonneg.2 h1)]
  · rcases le_or_lt L i2 with hLi2 | hi2L
    · exfalso
      have hi2eq : i2 = i + 1 := by omega
      have hLeq : L = i + 1 := by omega
      have hsi : s.getD i 0 < v' := by
        apply getD_lt_of_lt_count hs hisl
        rw [← hLdef]
        omega
      have hvmem : v ∈ s := by
        apply (sortedVals_perm xs).mem_iff.2
        rw [hvdef, List.getD_eq_getElem xs 0 hj]
        exact List.getElem_mem hj
      obtain ⟨w, hw, hwv⟩ := List.getElem_of_mem hvmem
      have hwD : s.getD w 0 = v := by
        rw [List.getD_eq_getElem s 0 hw, hwv]
      have hwL : L ≤ w := by
        by_contra hcon
        push_neg at hcon
        have hlt := getD_lt_of_lt_count hs hw (c := v') (by rw [← hLdef]; omega)
        rw [hwD] at hlt
        exact absurd hv (not_lt.2 (le_of_lt hlt))
      have hsL : s.getD L 0 ≤ v := by
        have hmono := sorted_getD_mono hs hwL hw
        rwa [hwD] at hmono
      have hti2 : v' ≤ t.getD i2 0 := by
        apply count_le_getD hs' hi2tl
        rw [hLfe]
        exact hLi2
      have hti : t.getD i 0 = s.getD i 0 := by
        apply sortedVals_set_getD_eq xs j v' hj hv
        rw [← hLdef]
        omega
      have hsi2v : s.getD i2 0 ≤ v := by
        rw [hi2eq, ← hLeq]
        exact hsL
      have hf0 : (0 : ℚ) ≤ p - (i : ℚ) := sub_nonneg.2 hiple
      have hf1 : p - (i : ℚ) < 1 := by linarith
      nlinarith [mul_pos (by linarith : (0 : ℚ) < 1 - (p - (i : ℚ)))
          (by linarith : (0 : ℚ) < v' - s.getD i 0),
        mul_nonneg hf0 (by linarith : (0 : ℚ) ≤ v - s.getD i2 0)]
    · have hti : t.getD i 0 = s.getD i 0 := by
        apply sortedVals_set_getD_eq xs j v' hj hv
        rw [← hLdef]
        omega
      have hti2 : t.getD i2 0 = s.getD i2 0 := by
        apply sortedVals_set_getD_eq xs j v' hj hv
        rw [← hLdef]
        omega
      rw [hti, hti2]
      linarith

theorem qcut_ok_uedges {xs : List ℚ} {labels : List ℕ} {ys : List ℕ}
    (h : qcut xs labels = .ok ys) (hlab : labels.length = 5) :
    uniqueFirst (qcutEdges xs) = qcutEdges xs := by
  obtain ⟨hxs, hlen, _⟩ := qcut_ok_iff.1 h
  have h6 : (qcutEdges xs).length = 6 := rfl
  have hle : (uniqueFirst (qcutEdges xs)).length ≤ 6 := by
    rw [← h6]
    exact (uniqueFirst_sublist _).length_le
  have heq : (uniqueFirst (qcutEdges xs)).length = 6 := by omega
  exact uniqueFirst_eq_self (by rw [heq, h6])

theorem getD_map_of_lt {α β : Type} (f : α → β) (l : List α) {j : ℕ} (hj : j < l.length)
    (d : β) (e : α) : (l.map f).getD j d = f (l.getD j e) := by
  have hj2 : j < (l.map f).length := by
    rw [List.length_map]
    exact hj
  rw [List.getD_eq_getElem _ d hj2, List.getElem_map, List.getD_eq_getElem l e hj]

theorem rLabels_getD_le {b b2 : ℕ} (h1 : 1 ≤ b2) (hbb : b2 ≤ b) (hb : b ≤ 5) :
    rLabels.getD (b - 1) 0 ≤ rLabels.getD (b2 - 1) 0 := by
  have h1b : 1 ≤ b := le_trans h1 hbb
  interval_cases b <;> interval_cases b2 <;> decide

/-- C7: monotonicity of the recency score.  For two recency vectors that are
identical except that customer `j`'s recency is strictly smaller in the second
(all other customers' data held fixed), whenever the quantile scoring
(`pd.qcut` with descending labels 5..1, line 41) succeeds on both vectors,
customer `j`'s r_score in the second output is at least the one in the first. -/
theorem r_score_monotone_in_recency (recs : List ℚ) (j : ℕ) (hj : j < recs.length)
    (v' : ℚ) (hv : v' < recs.getD j 0) (ys ys2 : List ℕ)
    (h : qcut recs rLabels = .ok ys) (h2 : qcut (recs.set j v') rLabels = .ok ys2) :
    ys.getD j 0 ≤ ys2.getD j 0 := by
  obtain ⟨hne, hlen, hys⟩ := qcut_ok_iff.1 h
  obtain ⟨hne2, hlen2, hys2⟩ := qcut_ok_iff.1 h2
  have hu : uniqueFirst (qcutEdges recs) = qcutEdges recs := qcut_ok_uedges h rfl
  have hu2 : uniqueFirst (qcutEdges (recs.set j v')) = qcutEdges (recs.set j v') :=
    qcut_ok_uedges h2 rfl
  have hjset : j < (recs.set j v').length := by
    rw [List.length_set]
    exact hj
  have hyd : ys.getD j 0 =
      scoreAt (uniqueFirst (qcutEdges recs)) rLabels (recs.getD j 0) := by
    rw [hys]
    exact getD_map_of_lt _ recs hj 0 0
  have hyd2 : ys2.getD j 0 =
      scoreAt (uniqueFirst (qcutEdges (recs.set j v'))) rLabels
        ((recs.set j v').getD j 0) := by
    rw [hys2]
    exact getD_map_of_lt _ _ hjset 0 0
  have hsetD : (recs.set j v').getD j 0 = v' := by
    rw [List.getD_eq_getElem _ 0 hjset]
    exact List.getElem_set_self _
  have hvmem : recs.getD j 0 ∈ recs := by
    rw [List.getD_eq_getElem recs 0 hj]
    exact List.getElem_mem hj
  have hvmem2 : v' ∈ recs.set j v' :=
    List.mem_iff_getElem.2 ⟨j, hjset, List.getElem_set_self hjset⟩
  have hq01 : ∀ q ∈ ([0, 1/5, 2/5, 3/5, 4/5, 1] : List ℚ), (0 : ℚ) ≤ q ∧ q ≤ 1 := by
    intro q hq
    fin_cases hq <;> norm_num
  have hcc : ((qcutEdges (recs.set j v')).filter (fun e => e < v')).length ≤
      ((qcutEdges recs).filter (fun e => e < recs.getD j 0)).length := by
    rw [qcutEdges, qcutEdges, List.filter_map, List.filter_map,
      List.length_map, List.length_map]
    apply length_filter_mono
    intro q hq hpq
    simp only [Function.comp_apply, decide_eq_true_eq] at hpq ⊢
    by_contra hcon
    push_neg at hcon
    have hge := quantile_set_ge recs j hj v' hv q (hq01 q hq).1 (hq01 q hq).2 hcon
    exact absurd hpq (not_lt.2 hge)
  have hcnt : ((qcutEdges recs).filter (fun e => e < recs.getD j 0)).length <
      (qcutEdges recs).length :=
    List.length_filter_lt_length_iff_exists.2
      ⟨quantile recs 1, quantile_one_mem_edges recs, by
        simp only [decide_eq_true_eq]
        exact not_lt.2 (le_quantile_one hvmem)⟩
  have hcnt2 : ((qcutEdges (recs.set j v')).filter (fun e => e < v')).length <
      (qcutEdges (recs.set j v')).length :=
    List.length_filter_lt_length_iff_exists.2
      ⟨quantile (recs.set j v') 1, quantile_one_mem_edges _, by
        simp only [decide_eq_true_eq]
        exact not_lt.2 (le_quantile_one hvmem2)⟩
  have h6 : (qcutEdges recs).length = 6 := rfl
  have h62 : (qcutEdges (recs.set j v')).length = 6 := rfl
  rw [hyd, hyd2, hu, hu2, hsetD, scoreAt, scoreAt, bucketId, bucketId]
  apply rLabels_getD_le
  · omega
  · omega
  · omega

/-- Witness for C7 at the concrete recency vectors `[0,1,2,3,4]` and
`[0,1,2,1/2,4]` (customer 3's recency lowered from 3 to 1/2): the r_score
rises from 2 to 4. -/
theorem r_score_monotone_in_recency_witness :
    (([5, 4, 3, 2, 1] : List ℕ).getD 3 0 ≤ ([5, 3, 2, 4, 1] : List ℕ).getD 3 0) :=
  r_score_monotone_in_recency [0, 1, 2, 3, 4] 3 (by decide) (1/2)
    (by with_unfolding_all decide) [5, 4, 3, 2, 1] [5, 3, 2, 4, 1]
    (by with_unfolding_all rfl) (by with_unfolding_all rfl)

theorem perform_rfm_analysis_eq (rows : List Txn) :
    perform_rfm_analysis rows =
      (qcut ((customersOf rows).map (fun c => ((recency rows c : ℤ) : ℚ))) rLabels).bind
        (fun rs =>
          (qcut ((rankFirst ((customersOf rows).map (frequency rows))).map
              (fun r : ℕ => (r : ℚ))) ascLabels).bind
            (fun fs =>
              (qcut ((customersOf rows).map (monetary rows)) ascLabels).bind
                (fun ms =>
                  Except.ok ((List.range (customersOf rows).length).map
                    (profileAt rows rs fs ms))))) := rfl

theorem perform_ok_elim {rows : List Txn} {ps : List Profile}
    (h : perform_rfm_analysis rows = .ok ps) :
    ∃ rs fs ms,
      qcut ((customersOf rows).map (fun c => ((recency rows c : ℤ) : ℚ))) rLabels = .ok rs ∧
      qcut ((rankFirst ((customersOf rows).map (frequency rows))).map
          (fun r : ℕ => (r : ℚ))) ascLabels = .ok fs ∧
      qcut ((customersOf rows).map (monetary rows)) ascLabels = .ok ms ∧
      ps = (List.range (customersOf rows).length).map (profileAt rows rs fs ms) := by
  rw [perform_rfm_analysis_eq] at h
  cases h1 : qcut ((customersOf rows).map (fun c => ((recency rows c : ℤ) : ℚ))) rLabels with
  | error e =>
    rw [h1] at h
    exact absurd h (by simp [Except.bind])
  | ok rs =>
    rw [h1] at h
    cases h2 : qcut ((rankFirst ((customersOf rows).map (frequency rows))).map
        (fun r : ℕ => (r : ℚ))) ascLabels with
    | error e =>
      rw [h2] at h
      exact absurd h (by simp [Except.bind])
    | ok fs =>
      rw [h2] at h
      cases h3 : qcut ((customersOf rows).map (monetary rows)) ascLabels with
      | error e =>
        rw [h3] at h
        exact absurd h (by simp [Except.bind])
      | ok ms =>
        rw [h3] at h
        refine ⟨rs, fs, ms, rfl, rfl, rfl, ?_⟩
        have h4 : Except.ok (ε := String) ((List.range (customersOf rows).length).map
            (profileAt rows rs fs ms)) = .ok ps := h
        exact (Except.ok.inj h4).symm

theorem segmentOf_eq_champions {s : ℕ} : segmentOf s = "Champions" ↔ 13 ≤ s := by
  rw [segmentOf]
  split_ifs with h1 h2 h3 h4 <;> constructor <;> intro hx <;>
    first
      | rfl
      | omega
      | exact absurd hx (by decide)

theorem segmentOf_eq_loyal {s : ℕ} :
    segmentOf s = "Loyal Customers" ↔ 10 ≤ s ∧ s < 13 := by
  rw [segmentOf]
  split_ifs with h1 h2 h3 h4 <;> constructor <;> intro hx <;>
    first
      | rfl
      | omega
      | exact absurd hx (by decide)

theorem segmentOf_eq_potential {s : ℕ} :
    segmentOf s = "Potential Loyalists" ↔ 7 ≤ s ∧ s < 10 := by
  rw [segmentOf]
  split_ifs with h1 h2 h3 h4 <;> constructor <;> intro hx <;>
    first
      | rfl
      | omega
      | exact absurd hx (by decide)

theorem segmentOf_eq_atrisk {s : ℕ} : segmentOf s = "At Risk" ↔ 5 ≤ s ∧ s < 7 := by
  rw [segmentOf]
  split_ifs with h1 h2 h3 h4 <;> constructor <;> intro hx <;>
    first
      | rfl
      | omega
      | exact absurd hx (by decide)

theorem segmentOf_eq_lost {s : ℕ} : segmentOf s = "Lost Customers" ↔ s < 5 := by
  rw [segmentOf]
  split_ifs with h1 h2 h3 h4 <;> constructor <;> intro hx <;>
    first
      | rfl
      | omega
      | exact absurd hx (by decide)

theorem segmentOf_mem_segNames (s : ℕ) : segmentOf s ∈ segNames := by
  rw [segmentOf, segNames]
  split_ifs <;> simp

theorem churnOf_ne_high {r : ℕ} (h : 3 ≤ r) : churnOf r ≠ "High" := by
  rw [churnOf, if_neg (by omega)]
  split_ifs <;> decide

theorem rankFirst_length (l : List ℕ) : (rankFirst l).length = l.length := by
  rw [rankFirst, List.length_map, List.length_range]

theorem countSeg_sum_of_mem (ps : List Profile) (h : ∀ p ∈ ps, p.segment ∈ segNames) :
    countSeg ps "Champions" + countSeg ps "Loyal Customers" +
      countSeg ps "Potential Loyalists" + countSeg ps "At Risk" +
      countSeg ps "Lost Customers" = ps.length := by
  induction ps with
  | nil => rfl
  | cons p t ih =>
    have hp := h p (List.mem_cons_self p t)
    have ih2 := ih (fun x hx => h x (List.mem_cons_of_mem p hx))
    simp only [segNames, List.mem_cons, List.not_mem_nil, or_false] at hp
    simp only [countSeg, List.filter_cons, List.length_cons] at ih2 ⊢
    rcases hp with h1 | h1 | h1 | h1 | h1 <;> rw [h1] <;> simp <;> omega

theorem mem_rLabels_bounds {x : ℕ} (h : x ∈ rLabels) : 1 ≤ x ∧ x ≤ 5 := by
  simp only [rLabels, List.mem_cons, List.not_mem_nil, or_false] at h
  rcases h with h | h | h | h | h <;> omega

theorem mem_ascLabels_bounds {x : ℕ} (h : x ∈ ascLabels) : 1 ≤ x ∧ x ≤ 5 := by
  simp only [ascLabels, List.mem_cons, List.not_mem_nil, or_false] at h
  rcases h with h | h | h | h | h <;> omega

theorem qcut_getD_mem {xs : List ℚ} {labels : List ℕ} {ys : List ℕ}
    (h : qcut xs labels = .ok ys) (hlab : labels ≠ []) {k : ℕ} (hk : k < ys.length) :
    ys.getD k 0 ∈ labels := by
  apply qcut_mem h hlab
  rw [List.getD_eq_getElem ys 0 hk]
  exact List.getElem_mem hk

/-- C1: on any successful run, each distinct customer gets a profile, and in
every profile `recency` is the day difference between the global latest
transaction date and the customer's own latest one (hence nonnegative),
`frequency` is the number of the customer's rows (hence at least 1), and
`monetary` is the sum of the customer's `total_amount` values. -/
theorem rfm_aggregation_correct (rows : List Txn) (ps : List Profile)
    (h : perform_rfm_analysis rows = .ok ps) :
    (∀ c ∈ customersOf rows, ∃ p ∈ ps, p.customer_id = c) ∧
    ∀ p ∈ ps,
      p.recency = maxDate rows - custMaxDate rows p.customer_id ∧
      0 ≤ p.recency ∧
      p.frequency = (rows.filter (fun t => t.customer_id = some p.customer_id)).length ∧
      1 ≤ p.frequency ∧
      p.monetary =
        ((rows.filter (fun t => t.customer_id = some p.customer_id)).filterMap
          Txn.total_amount).sum := by
  obtain ⟨rs, fs, ms, h1, h2, h3, hps⟩ := perform_ok_elim h
  constructor
  · intro c hc
    obtain ⟨k, hk, hck⟩ := List.getElem_of_mem hc
    refine ⟨profileAt rows rs fs ms k, ?_, ?_⟩
    · rw [hps]
      exact List.mem_map_of_mem _ (List.mem_range.2 hk)
    · show (customersOf rows).getD k 0 = c
      rw [List.getD_eq_getElem _ 0 hk, hck]
  · intro p hp
    rw [hps] at hp
    obtain ⟨k, hkmem, hpk⟩ := List.mem_map.1 hp
    have hk : k < (customersOf rows).length := List.mem_range.1 hkmem
    subst hpk
    have hcmem : (customersOf rows).getD k 0 ∈ customersOf rows := by
      rw [List.getD_eq_getElem _ 0 hk]
      exact List.getElem_mem hk
    have hfreq : ((customersOf rows).map (frequency rows)).getD k 0 =
        frequency rows ((customersOf rows).getD k 0) :=
      getD_map_of_lt (frequency rows) _ hk 0 0
    have hmon : ((customersOf rows).map (monetary rows)).getD k 0 =
        monetary rows ((customersOf rows).getD k 0) :=
      getD_map_of_lt (monetary rows) _ hk 0 0
    refine ⟨rfl, ?_, ?_, ?_, ?_⟩
    · show 0 ≤ recency rows ((customersOf rows).getD k 0)
      have := custMaxDate_le_maxDate hcmem
      rw [recency]
      omega
    · show ((customersOf rows).map (frequency rows)).getD k 0 = _
      rw [hfreq]
      rfl
    · show 1 ≤ ((customersOf rows).map (frequency rows)).getD k 0
      rw [hfreq, frequency]
      have := rowsOf_ne_nil hcmem
      have := List.length_pos.2 this
      omega
    · show ((customersOf rows).map (monetary rows)).getD k 0 = _
      rw [hmon]
      rfl

/-- C2: in every output profile the segment label corresponds to the total
score `r_score + f_score + m_score` exactly by the thresholds of
`segment_customers`: Champions iff ≥ 13, Loyal Customers iff in [10, 13),
Potential Loyalists iff in [7, 10), At Risk iff in [5, 7), Lost Customers
iff < 5. -/
theorem segment_matches_total_score (rows : List Txn) (ps : List Profile)
    (h : perform_rfm_analysis rows = .ok ps) :
    ∀ p ∈ ps,
      (p.segment = "Champions" ↔ 13 ≤ p.r_score + p.f_score + p.m_score) ∧
      (p.segment = "Loyal Customers" ↔
        10 ≤ p.r_score + p.f_score + p.m_score ∧ p.r_score + p.f_score + p.m_score < 13) ∧
      (p.segment = "Potential Loyalists" ↔
        7 ≤ p.r_score + p.f_score + p.m_score ∧ p.r_score + p.f_score + p.m_score < 10) ∧
      (p.segment = "At Risk" ↔
        5 ≤ p.r_score + p.f_score + p.m_score ∧ p.r_score + p.f_score + p.m_score < 7) ∧
      (p.segment = "Lost Customers" ↔ p.r_score + p.f_score + p.m_score < 5) := by
  obtain ⟨rs, fs, ms, h1, h2, h3, hps⟩ := perform_ok_elim h
  intro p hp
  rw [hps] at hp
  obtain ⟨k, hkmem, hpk⟩ := List.mem_map.1 hp
  subst hpk
  exact ⟨segmentOf_eq_champions, segmentOf_eq_loyal, segmentOf_eq_potential,
    segmentOf_eq_atrisk, segmentOf_eq_lost⟩

/-- C5: on any successful run all three scores lie in 1..5 and the total
score lies in 3..15. -/
theorem scores_in_range (rows : List Txn) (ps : List Profile)
    (h : perform_rfm_analysis rows = .ok ps) :
    ∀ p ∈ ps,
      1 ≤ p.r_score ∧ p.r_score ≤ 5 ∧ 1 ≤ p.f_score ∧ p.f_score ≤ 5 ∧
      1 ≤ p.m_score ∧ p.m_score ≤ 5 ∧
      3 ≤ p.r_score + p.f_score + p.m_score ∧ p.r_score + p.f_score + p.m_score ≤ 15 := by
  obtain ⟨rs, fs, ms, h1, h2, h3, hps⟩ := perform_ok_elim h
  intro p hp
  rw [hps] at hp
  obtain ⟨k, hkmem, hpk⟩ := List.mem_map.1 hp
  have hk : k < (customersOf rows).length := List.mem_range.1 hkmem
  subst hpk
  have hrl : rs.length = (customersOf rows).length := by
    rw [qcut_length h1, List.length_map]
  have hfl : fs.length = (customersOf rows).length := by
    rw [qcut_length h2, List.length_map, rankFirst_length, List.length_map]
  have hml : ms.length = (customersOf rows).length := by
    rw [qcut_length h3, List.length_map]
  have hr := mem_rLabels_bounds (qcut_getD_mem h1 (by decide) (k := k) (by omega))
  have hf := mem_ascLabels_bounds (qcut_getD_mem h2 (by decide) (k := k) (by omega))
  have hm := mem_ascLabels_bounds (qcut_getD_mem h3 (by decide) (k := k) (by omega))
  simp only [profileAt]
  omega

/-- C6: on any successful run there is exactly one profile per distinct
customer id — the profile list has one entry for each entry of the sorted
distinct-customer list — and the five segment counts sum to that number. -/
theorem one_profile_per_customer (rows : List Txn) (ps : List Profile)
    (h : perform_rfm_analysis rows = .ok ps) :
    ps.length = (customersOf rows).length ∧
    ps.map Profile.customer_id = customersOf rows ∧
    countSeg ps "Champions" + countSeg ps "Loyal Customers" +
      countSeg ps "Potential Loyalists" + countSeg ps "At Risk" +
      countSeg ps "Lost Customers" = (customersOf rows).length := by
  obtain ⟨rs, fs, ms, h1, h2, h3, hps⟩ := perform_ok_elim h
  have hlen : ps.length = (customersOf rows).length := by
    rw [hps, List.length_map, List.length_range]
  refine ⟨hlen, ?_, ?_⟩
  · rw [hps]
    apply List.ext_getElem
    · rw [List.length_map, List.length_map, List.length_range]
    · intro n h1n h2n
      simp only [List.getElem_map, List.getElem_range]
      show (customersOf rows).getD n 0 = (customersOf rows)[n]
      rw [List.getD_eq_getElem _ 0 h2n]
  · have hmem : ∀ p ∈ ps, p.segment ∈ segNames := by
      intro p hp
      rw [hps] at hp
      obtain ⟨k, hk, hpk⟩ := List.mem_map.1 hp
      rw [← hpk]
      exact segmentOf_mem_segNames _
    rw [← hlen]
    exact countSeg_sum_of_mem ps hmem

/-- C10: a profile segmented as Champions never carries churn risk High:
its total score is at least 13, and since f_score and m_score are at most 5
the r_score is at least 3, while High requires r_score at most 2. -/
theorem champions_not_high_churn (rows : List Txn) (ps : List Profile) (p : Profile)
    (h : perform_rfm_analysis rows = .ok ps) (hp : p ∈ ps)
    (hseg : p.segment = "Champions") : p.churn_risk ≠ "High" := by
  obtain ⟨rs, fs, ms, h1, h2, h3, hps⟩ := perform_ok_elim h
  rw [hps] at hp
  obtain ⟨k, hkmem, hpk⟩ := List.mem_map.1 hp
  have hk : k < (customersOf rows).length := List.mem_range.1 hkmem
  subst hpk
  have hfl : fs.length = (customersOf rows).length := by
    rw [qcut_length h2, List.length_map, rankFirst_length, List.length_map]
  have hml : ms.length = (customersOf rows).length := by
    rw [qcut_length h3, List.length_map]
  have hf := mem_ascLabels_bounds (qcut_getD_mem h2 (by decide) (k := k) (by omega))
  have hm := mem_ascLabels_bounds (qcut_getD_mem h3 (by decide) (k := k) (by omega))
  have h13 : 13 ≤ rs.getD k 0 + fs.getD k 0 + ms.getD k 0 := segmentOf_eq_champions.1 hseg
  have hr3 : 3 ≤ rs.getD k 0 := by omega
  show churnOf (rs.getD k 0) ≠ "High"
  exact churnOf_ne_high hr3

/-- Witness for C1 at the concrete table `wRows`, whose run succeeds and
returns `wProfiles`. -/
theorem rfm_aggregation_correct_witness :
    (∀ c ∈ customersOf wRows, ∃ p ∈ wProfiles, p.customer_id = c) ∧
    ∀ p ∈ wProfiles,
      p.recency = maxDate wRows - custMaxDate wRows p.customer_id ∧
      0 ≤ p.recency ∧
      p.frequency = (wRows.filter (fun t => t.customer_id = some p.customer_id)).length ∧
      1 ≤ p.frequency ∧
      p.monetary =
        ((wRows.filter (fun t => t.customer_id = some p.customer_id)).filterMap
          Txn.total_amount).sum :=
  rfm_aggregation_correct wRows wProfiles (by with_unfolding_all rfl)

/-- Witness for C2 at the concrete table `wRows` and its Champion profile. -/
theorem segment_matches_total_score_witness :
    (champProfile.segment = "Champions" ↔
      13 ≤ champProfile.r_score + champProfile.f_score + champProfile.m_score) ∧
    (champProfile.segment = "Loyal Customers" ↔
      10 ≤ champProfile.r_score + champProfile.f_score + champProfile.m_score ∧
        champProfile.r_score + champProfile.f_score + champProfile.m_score < 13) ∧
    (champProfile.segment = "Potential Loyalists" ↔
      7 ≤ champProfile.r_score + champProfile.f_score + champProfile.m_score ∧
        champProfile.r_score + champProfile.f_score + champProfile.m_score < 10) ∧
    (champProfile.segment = "At Risk" ↔
      5 ≤ champProfile.r_score + champProfile.f_score + champProfile.m_score ∧
        champProfile.r_score + champProfile.f_score + champProfile.m_score < 7) ∧
    (champProfile.segment = "Lost Customers" ↔
      champProfile.r_score + champProfile.f_score + champProfile.m_score < 5) :=
  segment_matches_total_score wRows wProfiles (by with_unfolding_all rfl)
    champProfile (List.mem_cons_self _ _)

/-- Witness for C5 at the concrete table `wRows` and its Champion profile. -/
theorem scores_in_range_witness :
    1 ≤ champProfile.r_score ∧ champProfile.r_score ≤ 5 ∧
    1 ≤ champProfile.f_score ∧ champProfile.f_score ≤ 5 ∧
    1 ≤ champProfile.m_score ∧ champProfile.m_score ≤ 5 ∧
    3 ≤ champProfile.r_score + champProfile.f_score + champProfile.m_score ∧
    champProfile.r_score + champProfile.f_score + champProfile.m_score ≤ 15 :=
  scores_in_range wRows wProfiles (by with_unfolding_all rfl)
    champProfile (List.mem_cons_self _ _)

/-- Witness for C6 at the concrete table `wRows` (five distinct customers,
five profiles, segment counts summing to five). -/
theorem one_profile_per_customer_witness :
    wProfiles.length = (customersOf wRows).length ∧
    wProfiles.map Profile.customer_id = customersOf wRows ∧
    countSeg wProfiles "Champions" + countSeg wProfiles "Loyal Customers" +
      countSeg wProfiles "Potential Loyalists" + countSeg wProfiles "At Risk" +
      countSeg wProfiles "Lost Customers" = (customersOf wRows).length :=
  one_profile_per_customer wRows wProfiles (by with_unfolding_all rfl)

/-- Witness for C10: customer 1 of `wRows` is a Champion and its churn risk
is not High. -/
theorem champions_not_high_churn_witness :
    (⟨1, 0, 5, 50, 5, 5, 5, "Champions", "Low"⟩ : Profile).churn_risk ≠ "High" :=
  champions_not_high_churn wRows wProfiles ⟨1, 0, 5, 50, 5, 5, 5, "Champions", "Low"⟩
    (by with_unfolding_all rfl) (List.mem_cons_self _ _) rfl

/-- C3 (code bug): on the boundary input in which all five customers share a
single monetary value, the monetary quantile edges collapse and `pd.qcut`
raises `ValueError: Bin labels must be one fewer than the number of bin
edges` — the computation fails instead of collapsing buckets as the spec
prescribes. -/
theorem single_monetary_value_raises :
    perform_rfm_analysis singleMonetaryRows =
      .error "Bin labels must be one fewer than the number of bin edges" := by
  with_unfolding_all rfl

/-- C8 (code bug): on the spec scenario — five customers with monetary 10,
20, 30, 40, 50 and equal recency and frequency — the recency quantile edges
all coincide (single distinct recency 0), so the very first `pd.qcut` call
(line 41) raises and no m_scores are ever produced, contrary to the claimed
successful 1..5 assignment. -/
theorem scenario_equal_recency_raises :
    perform_rfm_analysis scenarioRows =
      .error "Bin labels must be one fewer than the number of bin edges" := by
  with_unfolding_all rfl

/-- Counterexample to C4: a row with null `customer_id` and null
`total_amount` (missing required fields) does not make the computation fail;
the row is silently dropped by `groupby` and the run returns the same
profiles as without it. -/
theorem null_field_row_does_not_fail :
    perform_rfm_analysis nullFieldRows = .ok wProfiles := by
  with_unfolding_all rfl

/-- C4 as amended: the computation does fail on an empty transaction
collection (the quantile bucketing of an empty series raises), and by the
`Except` result type a failing run returns no partial profiles. -/
theorem empty_input_fails :
    perform_rfm_analysis [] = .error "empty input to qcut" := rfl

theorem rankFirst_getD {l : List ℕ} {i : ℕ} (hi : i < l.length) :
    (rankFirst l).getD i 0 = 1 + (l.filter (fun y => y < l.getD i 0)).length
      + ((l.take i).filter (fun y => y = l.getD i 0)).length := by
  rw [rankFirst, getD_map_of_lt _ _ (by rw [List.length_range]; exact hi) 0 0]
  have hg : (List.range l.length).getD i 0 = i := by
    rw [List.getD_eq_getElem _ 0 (by rw [List.length_range]; exact hi), List.getElem_range]
  rw [hg]

theorem filter_lt_add_filter_eq_le (t : List ℕ) (v : ℕ) :
    (t.filter (fun y => y < v)).length + (t.filter (fun y => y = v)).length ≤ t.length := by
  induction t with
  | nil => simp
  | cons x xs ih =>
    rw [List.filter_cons, List.filter_cons, List.length_cons]
    by_cases h1 : x < v
    · have h2 : ¬ x = v := by omega
      rw [if_pos (decide_eq_true h1), if_neg (by simpa using h2), List.length_cons]
      omega
    · by_cases h2 : x = v
      · rw [if_neg (by simpa using h1), if_pos (decide_eq_true h2), List.length_cons]
        omega
      · rw [if_neg (by simpa using h1), if_neg (by simpa using h2)]
        omega

theorem filter_lt_eq_le_filter_lt {a b : ℕ} (hab : a < b) (l : List ℕ) :
    (l.filter (fun y => y < a)).length + (l.filter (fun y => y = a)).length ≤
      (l.filter (fun y => y < b)).length := by
  induction l with
  | nil => simp
  | cons x xs ih =>
    rw [List.filter_cons, List.filter_cons, List.filter_cons]
    by_cases h1 : x < a
    · have h2 : ¬ x = a := by omega
      have h3 : x < b := by omega
      rw [if_pos (decide_eq_true h1), if_neg (by simpa using h2),
        if_pos (decide_eq_true h3), List.length_cons, List.length_cons]
      omega
    · by_cases h2 : x = a
      · have h3 : x < b := by omega
        rw [if_neg (by simpa using h1), if_pos (decide_eq_true h2),
          if_pos (decide_eq_true h3), List.length_cons, List.length_cons]
        omega
      · by_cases h3 : x < b
        · rw [if_neg (by simpa using h1), if_neg (by simpa using h2),
            if_pos (decide_eq_true h3), List.length_cons]
          omega
        · rw [if_neg (by simpa using h1), if_neg (by simpa using h2),
            if_neg (by simpa using h3)]
          omega

theorem length_filter_take_succ {α : Type} (p : α → Bool) (l : List α) (i : ℕ)
    (hi : i < l.length) (d : α) (hp : p (l.getD i d) = true) :
    ((l.take (i + 1)).filter p).length = ((l.take i).filter p).length + 1 := by
  rw [List.take_succ, List.getElem?_eq_getElem hi]
  rw [List.filter_append, List.length_append]
  have hd : l.getD i d = l[i] := List.getD_eq_getElem l d hi
  rw [hd] at hp
  simp [List.filter_cons, hp]

theorem length_filter_take_le {α : Type} (p : α → Bool) (l : List α) (i : ℕ) :
    ((l.take i).filter p).length ≤ (l.filter p).length :=
  (List.Sublist.filter p (List.take_sublist i l)).length_le

theorem rankFirst_lt_of_val_lt {l : List ℕ} {i j : ℕ} (hi : i < l.length) (hj : j < l.length)
    (hv : l.getD i 0 < l.getD j 0) :
    (rankFirst l).getD i 0 < (rankFirst l).getD j 0 := by
  rw [rankFirst_getD hi, rankFirst_getD hj]
  have h1 : ((l.take (i + 1)).filter (fun y => y = l.getD i 0)).length =
      ((l.take i).filter (fun y => y = l.getD i 0)).length + 1 :=
    length_filter_take_succ _ l i hi 0 (by simp)
  have h2 : ((l.take (i + 1)).filter (fun y => y = l.getD i 0)).length ≤
      (l.filter (fun y => y = l.getD i 0)).length := length_filter_take_le _ l (i + 1)
  have h3 := filter_lt_eq_le_filter_lt hv l
  omega

theorem rankFirst_lt_of_eq {l : List ℕ} {i j : ℕ} (hij : i < j) (hj : j < l.length)
    (hv : l.getD i 0 = l.getD j 0) :
    (rankFirst l).getD i 0 < (rankFirst l).getD j 0 := by
  have hi : i < l.length := lt_trans hij hj
  rw [rankFirst_getD hi, rankFirst_getD hj, hv]
  have h1 : ((l.take (i + 1)).filter (fun y => y = l.getD j 0)).length =
      ((l.take i).filter (fun y => y = l.getD j 0)).length + 1 :=
    length_filter_take_succ _ l i hi 0 (by rw [hv]; simp)
  have h2 : ((l.take (i + 1)).filter (fun y => y = l.getD j 0)).length ≤
      ((l.take j).filter (fun y => y = l.getD j 0)).length :=
    ((List.take_prefix_take_left l (show i + 1 ≤ j by omega)).sublist.filter _).length_le
  omega

theorem rankFirst_getD_bounds {l : List ℕ} {i : ℕ} (hi : i < l.length) :
    1 ≤ (rankFirst l).getD i 0 ∧ (rankFirst l).getD i 0 ≤ l.length := by
  rw [rankFirst_getD hi]
  refine ⟨by omega, ?_⟩
  set v := l.getD i 0 with hv
  have hA : (l.filter (fun y => y < v)).length =
      ((l.take i).filter (fun y => y < v)).length +
      ((l.drop i).filter (fun y => y < v)).length := by
    have h1 : l.filter (fun y => y < v) =
        (l.take i ++ l.drop i).filter (fun y => y < v) := by
      rw [List.take_append_drop]
    rw [h1, List.filter_append, List.length_append]
  have hdrop : ((l.drop i).filter (fun y => y < v)).length ≤ l.length - i - 1 := by
    rw [List.drop_eq_getElem_cons hi, List.filter_cons]
    have hvv : l[i] = v := (List.getD_eq_getElem l 0 hi).symm
    rw [if_neg (by simp [hvv])]
    have := List.length_filter_le (fun y => decide (y < v)) (l.drop (i + 1))
    rw [List.length_drop] at this
    omega
  have htake := filter_lt_add_filter_eq_le (l.take i) v
  have hti : (l.take i).length ≤ i := by
    rw [List.length_take]
    omega
  omega

theorem rankFirst_nodup (l : List ℕ) : (rankFirst l).Nodup := by
  have key : ∀ i j, i < l.length → j < l.length → i ≠ j →
      (rankFirst l).getD i 0 ≠ (rankFirst l).getD j 0 := by
    intro i j hi hj hne
    rcases Nat.lt_trichotomy (l.getD i 0) (l.getD j 0) with hv | hv | hv
    · exact Nat.ne_of_lt (rankFirst_lt_of_val_lt hi hj hv)
    · rcases Nat.lt_trichotomy i j with hij | hij | hij
      · exact Nat.ne_of_lt (rankFirst_lt_of_eq hij hj hv)
      · exact absurd hij hne
      · exact (Nat.ne_of_lt (rankFirst_lt_of_eq hij hi hv.symm)).symm
    · exact (Nat.ne_of_lt (rankFirst_lt_of_val_lt hj hi hv)).symm
  rw [List.nodup_iff_injective_get]
  intro a b hab
  by_contra hne
  have hL : (rankFirst l).length ≤ l.length := le_of_eq (rankFirst_length l)
  have ha : (a : ℕ) < l.length := lt_of_lt_of_le a.isLt hL
  have hb : (b : ℕ) < l.length := lt_of_lt_of_le b.isLt hL
  have hne2 : (a : ℕ) ≠ (b : ℕ) := fun h => hne (Fin.ext h)
  apply key a b ha hb hne2
  rw [List.getD_eq_getElem _ 0 a.isLt, List.getD_eq_getElem _ 0 b.isLt]
  simpa [List.get_eq_getElem] using hab

theorem rankFirst_perm (l : List ℕ) : (rankFirst l).Perm (List.range' 1 l.length) := by
  have hlen : (rankFirst l).length = l.length := rankFirst_length l
  have hsub : rankFirst l ⊆ List.range' 1 l.length := by
    intro a ha
    obtain ⟨k, hk, hka⟩ := List.getElem_of_mem ha
    have hk2 : k < l.length := by
      rwa [rankFirst_length] at hk
    have hbd := rankFirst_getD_bounds hk2
    rw [List.getD_eq_getElem _ 0 hk, hka] at hbd
    rw [List.mem_range']
    exact ⟨a - 1, by omega, by omega⟩
  have hsp := List.subperm_of_subset (rankFirst_nodup l) hsub
  exact hsp.perm_of_length_le (by rw [List.length_range', hlen])

theorem sortedVals_rankFirst (l : List ℕ) :
    sortedVals ((rankFirst l).map (fun r : ℕ => (r : ℚ))) =
      (List.range' 1 l.length).map (fun r : ℕ => (r : ℚ)) := by
  exact List.eq_of_perm_of_sorted
    ((sortedVals_perm _).trans ((rankFirst_perm l).map _))
    (sortedVals_sorted _)
    (List.Pairwise.map _ (fun a b hab => by exact_mod_cast Nat.le_of_lt hab)
      (List.pairwise_lt_range' 1 l.length))

theorem quantile_rankFirst {l : List ℕ} (hn : 2 ≤ l.length) {q : ℚ} (hq0 : 0 ≤ q)
    (hq1 : q ≤ 1) :
    quantile ((rankFirst l).map (fun r : ℕ => (r : ℚ))) q =
      1 + q * ((l.length : ℚ) - 1) := by
  rw [quantile_def]
  have hXlen : ((rankFirst l).map (fun r : ℕ => (r : ℚ))).length = l.length := by
    rw [List.length_map, rankFirst_length]
  rw [hXlen, sortedVals_rankFirst]
  have hgd : ∀ u, u < l.length →
      (((List.range' 1 l.length).map (fun r : ℕ => (r : ℚ)))).getD u 0 = 1 + (u : ℚ) := by
    intro u hu
    rw [getD_map_of_lt _ _ (by rw [List.length_range']; exact hu) 0 0,
      List.getD_eq_getElem _ 0 (by rw [List.length_range']; exact hu), List.getElem_range']
    push_cast
    ring
  set p : ℚ := q * ((l.length : ℚ) - 1) with hp
  set i : ℕ := (⌊p⌋).toNat with hi
  have hnq : (1 : ℚ) ≤ (l.length : ℚ) := by
    have : (2 : ℚ) ≤ (l.length : ℚ) := by exact_mod_cast hn
    linarith
  have hp0 : 0 ≤ p := by
    apply mul_nonneg hq0
    linarith
  have hfloor0 : (0 : ℤ) ≤ ⌊p⌋ := Int.floor_nonneg.2 hp0
  have hicast : (i : ℚ) = ((⌊p⌋ : ℤ) : ℚ) := by
    rw [hi]
    exact_mod_cast congrArg (fun z => ((z : ℤ) : ℚ)) (Int.toNat_of_nonneg hfloor0)
  have hiple : (i : ℚ) ≤ p := by
    rw [hicast]
    exact Int.floor_le p
  have hpi1 : p < (i : ℚ) + 1 := by
    rw [hicast]
    exact_mod_cast Int.lt_floor_add_one p
  have hple : p ≤ (l.length : ℚ) - 1 := by
    calc p = q * ((l.length : ℚ) - 1) := rfl
      _ ≤ 1 * ((l.length : ℚ) - 1) := mul_le_mul_of_nonneg_right hq1 (by linarith)
      _ = (l.length : ℚ) - 1 := one_mul _
  have hile : i ≤ l.length - 1 := by
    have hfl : ⌊p⌋ ≤ (l.length : ℤ) - 1 := by
      have h2 := Int.floor_le_floor hple
      rwa [show ((l.length : ℚ) - 1) = (((l.length : ℤ) - 1 : ℤ) : ℚ) by push_cast; ring,
        Int.floor_intCast] at h2
    omega
  rcases Nat.lt_or_ge i (l.length - 1) with hlt | hge
  · have hmin : min (i + 1) (l.length - 1) = i + 1 := by omega
    rw [hmin, hgd i (by omega), hgd (i + 1) (by omega)]
    push_cast
    ring
  · have hieq : i = l.length - 1 := by omega
    have hpeq : p = (l.length : ℚ) - 1 := by
      have h1 : ((l.length - 1 : ℕ) : ℚ) = (l.length : ℚ) - 1 := by
        have : 1 ≤ l.length := by omega
        push_cast [this]
        ring
      have h2 : (i : ℚ) = (l.length : ℚ) - 1 := by
        rw [hieq, h1]
      linarith [hiple, hple, h2.ge, h2.le]
    have hmin : min (i + 1) (l.length - 1) = i := by omega
    rw [hmin, hgd i (by omega)]
    have h2 : (i : ℚ) = (l.length : ℚ) - 1 := by
      rw [hieq]
      have : 1 ≤ l.length := by omega
      push_cast [this]
      ring
    rw [hpeq, h2]
    ring

theorem uniqueFirst_of_nodup {l : List ℚ} (h : l.Nodup) : uniqueFirst l = l := by
  induction l using uniqueFirst.induct with
  | case1 => rw [uniqueFirst]
  | case2 x xs ih =>
    rw [uniqueFirst]
    have hx : x ∉ xs := (List.nodup_cons.1 h).1
    have hfe : xs.filter (fun y => y ≠ x) = xs := by
      apply List.filter_eq_self.2
      intro a ha
      simp only [ne_eq, decide_eq_true_eq]
      intro hax
      exact hx (hax ▸ ha)
    rw [hfe] at ih
    rw [hfe, ih (List.nodup_cons.1 h).2]

theorem qlist_bounds : ∀ q ∈ ([0, 1/5, 2/5, 3/5, 4/5, 1] : List ℚ), 0 ≤ q ∧ q ≤ 1 := by
  intro q hq
  fin_cases hq <;> norm_num

theorem qcutEdges_rankFirst_nodup {l : List ℕ} (hn : 2 ≤ l.length) :
    (qcutEdges ((rankFirst l).map (fun r : ℕ => (r : ℚ)))).Nodup := by
  rw [qcutEdges]
  rw [List.map_congr_left (fun q hq =>
    quantile_rankFirst hn (qlist_bounds q hq).1 (qlist_bounds q hq).2)]
  apply List.Nodup.map_on
  · intro x hx y hy hxy
    have hne : ((l.length : ℚ) - 1) ≠ 0 := by
      have h2 : (2 : ℚ) ≤ (l.length : ℚ) := by exact_mod_cast hn
      intro h0
      linarith
    exact mul_right_cancel₀ hne (by linarith)
  · simp only [List.nodup_cons, List.mem_cons, List.not_mem_nil, or_false,
      List.nodup_nil, and_true]
    norm_num

theorem qcut_rankFirst_ok {l : List ℕ} (hn : 2 ≤ l.length) :
    qcut ((rankFirst l).map (fun r : ℕ => (r : ℚ))) ascLabels =
      .ok (((rankFirst l).map (fun r : ℕ => (r : ℚ))).map
        (scoreAt (uniqueFirst (qcutEdges ((rankFirst l).map (fun r : ℕ => (r : ℚ)))))
          ascLabels)) := by
  apply qcut_ok_iff.2
  refine ⟨?_, ?_, rfl⟩
  · intro h
    have h0 := congrArg List.length h
    rw [List.length_map, rankFirst_length, List.length_nil] at h0
    omega
  · rw [uniqueFirst_of_nodup (qcutEdges_rankFirst_nodup hn)]
    rfl

/-- C9: because the frequencies are first converted to a stable
first-occurrence rank — the ranks of `n` customers are exactly the distinct
values `1..n` — the six f_score quantile edges are pairwise distinct for
every table with at least two distinct customers, so `pd.qcut` cannot take
the duplicate-edge collapse branch there: the f_score bucketing succeeds and
every customer's f_score lies in 1..5. -/
theorem f_score_rank_no_collapse (rows : List Txn)
    (h2 : 2 ≤ (customersOf rows).length) :
    ∃ ys, qcut ((rankFirst ((customersOf rows).map (frequency rows))).map
        (fun r : ℕ => (r : ℚ))) ascLabels = .ok ys ∧
      ∀ y ∈ ys, 1 ≤ y ∧ y ≤ 5 := by
  have hn : 2 ≤ ((customersOf rows).map (frequency rows)).length := by
    rw [List.length_map]
    exact h2
  refine ⟨_, qcut_rankFirst_ok hn, ?_⟩
  intro y hy
  exact mem_ascLabels_bounds (qcut_mem (qcut_rankFirst_ok hn) (by decide) y hy)

/-- Witness for C9 at the two-customer table `c9Rows`. -/
theorem f_score_rank_no_collapse_witness :
    2 ≤ (customersOf c9Rows).length ∧
    ∃ ys, qcut ((rankFirst ((customersOf c9Rows).map (frequency c9Rows))).map
        (fun r : ℕ => (r : ℚ))) ascLabels = .ok ys ∧
      ∀ y ∈ ys, 1 ≤ y ∧ y ≤ 5 :=
  ⟨by decide, f_score_rank_no_collapse c9Rows (by decide)⟩

end RFM
